import Mathlib

/-!
Verification development for the AstroDB storage engine and its query
engine (src/database.py, src/query_engine.py), as a shallow embedding:
JSON values are an inductive type, Python dicts are insertion-ordered
association lists with unique keys, and every store operation is a pure
function from store state to store state.
-/

namespace AstroDB

/-- JSON-compatible values as produced by ujson: null, booleans, numbers
(modelled as integers; no claim touches float behaviour), strings,
arrays and objects.  Objects are insertion-ordered key/value lists,
mirroring Python dicts. -/
inductive Value where
  | null : Value
  | bool : Bool → Value
  | int  : Int → Value
  | str  : String → Value
  | arr  : List Value → Value
  | obj  : List (String × Value) → Value
deriving Repr

mutual

/-- Structural equality of JSON values, the model of Python `==` on
JSON-compatible data.  (Python's cross-type equalities such as
`True == 1` are not modelled; the model applies this one equality
consistently wherever the source uses `==` or dict lookup.) -/
def Value.beq : Value → Value → Bool
  | .null, .null => true
  | .bool a, .bool b => a == b
  | .int a, .int b => a == b
  | .str a, .str b => a == b
  | .arr a, .arr b => Value.beqList a b
  | .obj a, .obj b => Value.beqObj a b
  | _, _ => false

/-- Elementwise equality of JSON arrays. -/
def Value.beqList : List Value → List Value → Bool
  | [], [] => true
  | x :: xs, y :: ys => Value.beq x y && Value.beqList xs ys
  | _, _ => false

/-- Pairwise equality of JSON objects (key order significant, as in the
serialized form). -/
def Value.beqObj : List (String × Value) → List (String × Value) → Bool
  | [], [] => true
  | (k, x) :: xs, (l, y) :: ys => k == l && Value.beq x y && Value.beqObj xs ys
  | _, _ => false

end

/-- A scalar is a hashable JSON value: exactly the values Python can use
as dict keys (`None`, `bool`, numbers, `str`); lists and dicts are
unhashable. -/
def Value.isScalar : Value → Bool
  | .null => true
  | .bool _ => true
  | .int _ => true
  | .str _ => true
  | .arr _ => false
  | .obj _ => false

/-- A Python dict with string keys is modelled as an insertion-ordered
association list; lookup returns the first (only) binding of a key. -/
def dictGet (d : List (String × Value)) (k : String) : Option Value :=
  match d with
  | [] => none
  | (k', v) :: rest => if k' == k then some v else dictGet rest k

/-- Python `key in dict`. -/
def dictHas (d : List (String × Value)) (k : String) : Bool :=
  (dictGet d k).isSome

/-- Python `dict[key] = value`: replace in place if the key is bound
(keeping its position, as Python dicts do), else append. -/
def dictSet (d : List (String × Value)) (k : String) (v : Value) :
    List (String × Value) :=
  match d with
  | [] => [(k, v)]
  | (k', v') :: rest =>
    if k' == k then (k, v) :: rest else (k', v') :: dictSet rest k v

/-- Python `del dict[key]` (on a dict without duplicate keys this is
removal of the unique binding). -/
def dictDel (d : List (String × Value)) (k : String) : List (String × Value) :=
  match d with
  | [] => []
  | (k', v) :: rest => if k' == k then dictDel rest k else (k', v) :: dictDel rest k

/-- Python `dict.update(other)`: fold the other dict's bindings in. -/
def dictUpdate (d other : List (String × Value)) : List (String × Value) :=
  other.foldl (fun acc p => dictSet acc p.1 p.2) d

/-! ## Query engine (src/query_engine.py) -/

/-- `QueryEngine._get_nested_value`, inner loop: descend through nested
mappings along the split key path; any failure to descend yields null
(Python `None`, which also stands for an absent field). -/
def getNestedGo : Value → List String → Value
  | cur, [] => cur
  | cur, k :: rest =>
    match cur with
    | .obj fields =>
      match dictGet fields k with
      | some v => getNestedGo v rest
      | none => .null
    | _ => .null

/-- Python `key_path.split(".")` at the character level: split into the
(never empty) list of dot-free segments. -/
def splitDots : List Char → List (List Char)
  | [] => [[]]
  | c :: rest =>
    match splitDots rest with
    | [] => [[]]
    | seg :: segs =>
      if c == '.' then [] :: seg :: segs else (c :: seg) :: segs

/-- The list of path segments of a key, as `_get_nested_value` sees it. -/
def keyPath (path : String) : List String :=
  (splitDots path.data).map (fun cs => String.mk cs)

/-- `QueryEngine._get_nested_value`: resolve a dot-separated path. -/
def getNested (document : Value) (path : String) : Value :=
  getNestedGo document (keyPath path)

/-- Python `key in document` as used by `matches`'s missing-key guard.
Stored documents are always dicts; for the non-dict values reachable
only through `$elemMatch` recursion Python would raise `TypeError`
(or do substring/membership tests for str/list), modelled here as the
key being absent. -/
def keyIn : Value → String → Bool
  | .obj fields, k => dictHas fields k
  | _, _ => false

/-- Python `isinstance(x, (int, float))` view of a value, recalling that
`bool` is a subclass of `int` in Python. -/
def asNum : Value → Option Int
  | .int n => some n
  | .bool b => some (if b then 1 else 0)
  | _ => none

/-- Python `item in list` membership (by `==`). -/
def listContains (l : List Value) (v : Value) : Bool :=
  l.any (fun item => Value.beq item v)

/-- Whether the character list `p` is a leading segment of `t`. -/
def chrStarts : List Char → List Char → Bool
  | [], _ => true
  | _ :: _, [] => false
  | c :: cs, d :: ds => c == d && chrStarts cs ds

/-- Whether the character list `p` occurs contiguously inside `t`. -/
def chrFind : List Char → List Char → Bool
  | p, [] => p.isEmpty
  | p, d :: ds => chrStarts p (d :: ds) || chrFind p ds

/-- Model of `re.search(pattern, text)` for the literal-pattern case:
substring containment.  No claim exercises `$regex`. -/
def regexSearch (pattern text : String) : Bool :=
  chrFind pattern.data text.data

mutual

/-- `QueryEngine.matches`: `$and` takes the whole evaluation if present,
else `$or`, else every key of the query must be a satisfied field
clause.  The `$and`/`$or` string/object/scalar sub-branches record what
Python's `for sub_query in query[op]` iteration does on each shape
(characters and keys are never dicts, so each such subquery fails;
iterating a non-iterable raises `TypeError`, modelled as an empty
iteration). -/
def matchesDoc (document : Value) (query : List (String × Value)) : Bool :=
  match h₁ : dictGet query "$and" with
  | some v =>
    match v with
    | .arr subs => matchesAll document subs
    | .str s => s.isEmpty
    | .obj fields => fields.isEmpty
    | _ => true
  | none =>
    match h₂ : dictGet query "$or" with
    | some v =>
      match v with
      | .arr subs => matchesAny document subs
      | .str _ => false
      | .obj _ => false
      | _ => false
    | none => matchPairs document query
termination_by 8 * sizeOf query + 6
decreasing_by
all_goals
  have H : ∀ (d : List (String × Value)) (k : String) (v : Value),
      dictGet d k = some v → sizeOf v < sizeOf d := by
    intro d k v h
    induction d with
    | nil => simp [dictGet] at h
    | cons p rest ih =>
      obtain ⟨k', v'⟩ := p
      by_cases hk : (k' == k) = true
      · simp [dictGet, hk] at h
        subst h
        simp
        try omega
      · simp [dictGet, hk] at h
        have := ih h
        simp
        try omega
  simp_wf
  try
    first
    | omega
    | (have hs := H _ _ _ h₁
       simp at hs
       omega)
    | (have hs := H _ _ _ h₂
       simp at hs
       omega)

/-- Conjunction over `$and` subqueries; a non-dict subquery fails
(`matches` returns False on a non-dict query). -/
def matchesAll (document : Value) (subs : List Value) : Bool :=
  match subs with
  | [] => true
  | sub :: rest =>
    (match sub with
     | .obj q => matchesDoc document q
     | _ => false) && matchesAll document rest
termination_by 8 * sizeOf subs + 1
decreasing_by
all_goals simp_wf
all_goals omega

/-- Disjunction over `$or` subqueries. -/
def matchesAny (document : Value) (subs : List Value) : Bool :=
  match subs with
  | [] => false
  | sub :: rest =>
    (match sub with
     | .obj q => matchesDoc document q
     | _ => false) || matchesAny document rest
termination_by 8 * sizeOf subs + 1
decreasing_by
all_goals simp_wf
all_goals omega

/-- The field-clause loop of `matches`: resolve each key (dot notation
included); a null resolution with the literal key absent at top level
fails the whole match; otherwise defer to `_match_field`. -/
def matchPairs (document : Value) (pairs : List (String × Value)) : Bool :=
  match pairs with
  | [] => true
  | (key, value) :: rest =>
    (if Value.beq (getNested document key) .null && !(keyIn document key)
     then false
     else matchField (getNested document key) value) &&
    matchPairs document rest
termination_by 8 * sizeOf pairs + 5
decreasing_by
all_goals simp_wf
all_goals omega

/-- `QueryEngine._match_field`: operator object or bare-value clause. -/
def matchField (docValue : Value) (queryValue : Value) : Bool :=
  match queryValue with
  | .obj ops => matchOps docValue ops
  | _ =>
    match docValue, queryValue with
    | .arr dv, .arr qv => Value.beqList dv qv
    | .arr dv, qv => listContains dv qv
    | dv, qv => Value.beq dv qv
termination_by 8 * sizeOf queryValue + 6
decreasing_by
all_goals simp_wf
all_goals omega

/-- The operator loop of `_match_field`: all operators in one object are
ANDed. -/
def matchOps (docValue : Value) (ops : List (String × Value)) : Bool :=
  match ops with
  | [] => true
  | (op, opValue) :: rest => matchOp docValue op opValue && matchOps docValue rest
termination_by 8 * sizeOf ops + 5
decreasing_by
all_goals simp_wf
all_goals omega

/-- A single operator clause of `_match_field`. -/
def matchOp (docValue : Value) (op : String) (opValue : Value) : Bool :=
  match op with
  | "$gt" =>
    match asNum docValue, asNum opValue with
    | some a, some b => decide (a > b)
    | _, _ => false
  | "$lt" =>
    match asNum docValue, asNum opValue with
    | some a, some b => decide (a < b)
    | _, _ => false
  | "$gte" =>
    match asNum docValue, asNum opValue with
    | some a, some b => decide (a ≥ b)
    | _, _ => false
  | "$lte" =>
    match asNum docValue, asNum opValue with
    | some a, some b => decide (a ≤ b)
    | _, _ => false
  | "$ne" => !(Value.beq docValue opValue)
  | "$in" =>
    match opValue with
    | .arr opl =>
      match docValue with
      | .arr dl => dl.any (fun item => listContains opl item)
      | dv => listContains opl dv
    | _ => false
  | "$nin" =>
    match opValue with
    | .arr opl =>
      match docValue with
      | .arr dl => !(dl.any (fun item => listContains opl item))
      | dv => !(listContains opl dv)
    | _ => false
  | "$all" =>
    match docValue, opValue with
    | .arr dl, .arr opl => opl.all (fun item => listContains dl item)
    | _, _ => false
  | "$elemMatch" =>
    match docValue, opValue with
    | .arr items, .obj q => items.attach.any (fun it => matchesDoc it.1 q)
    | _, _ => false
  | "$regex" =>
    match docValue, opValue with
    | .str dv, .str pat => regexSearch pat dv
    | _, _ => false
  | "$size" =>
    match docValue, asNum opValue with
    | .arr dl, some n => decide ((dl.length : Int) = n)
    | _, _ => false
  | "$exists" =>
    match opValue with
    | .bool b =>
      if b && Value.beq docValue .null then false
      else if !b && !(Value.beq docValue .null) then false
      else true
    | _ => false
  | _ => false
termination_by 8 * sizeOf opValue + 6
decreasing_by
all_goals simp_wf
all_goals omega

end

/-! ## Document store (src/database.py) -/

/-- A stored document (a Python dict). -/
abbrev Doc := List (String × Value)

/-- A string-keyed Python dict holding values of type `α` (collections
map, index-definitions map, per-collection index map). -/
def alGet {α : Type} (m : List (String × α)) (k : String) : Option α :=
  match m with
  | [] => none
  | (k', v) :: rest => if k' == k then some v else alGet rest k

/-- Python `key in dict`. -/
def alHas {α : Type} (m : List (String × α)) (k : String) : Bool :=
  (alGet m k).isSome

/-- Python `dict[key] = value` (replace in place or append). -/
def alSet {α : Type} (m : List (String × α)) (k : String) (v : α) :
    List (String × α) :=
  match m with
  | [] => [(k, v)]
  | (k', v') :: rest =>
    if k' == k then (k, v) :: rest else (k', v') :: alSet rest k v

/-- One point index: a Python dict from a field's value to a document. -/
abbrev IndexMap := List (Value × Doc)

/-- Index lookup, Python `value in index_map` / `index_map[value]`. -/
def imGet (m : IndexMap) (v : Value) : Option Doc :=
  match m with
  | [] => none
  | (k, d) :: rest => if Value.beq k v then some d else imGet rest v

/-- Python `index_map[value] = doc`: overwrite the entry for an equal
key (keeping the original key object, as Python dicts do) or append. -/
def imSet (m : IndexMap) (v : Value) (doc : Doc) : IndexMap :=
  match m with
  | [] => [(v, doc)]
  | (k, d) :: rest =>
    if Value.beq k v then (k, doc) :: rest else (k, d) :: imSet rest v doc

/-- Python `del index_map[value]`. -/
def imDel (m : IndexMap) (v : Value) : IndexMap :=
  match m with
  | [] => []
  | (k, d) :: rest => if Value.beq k v then rest else (k, d) :: imDel rest v

/-- All indexes of one collection: field name to point index. -/
abbrev CollIndexes := List (String × IndexMap)

/-- All in-memory indexes: collection name to its indexes
(`AstroDB._indexes`). -/
abbrev Indexes := List (String × CollIndexes)

/-- The persistent part of the store (`AstroDB._db`): collections and
persisted index definitions. -/
structure DB where
  collections : List (String × List Doc)
  indexDefs : List (String × List String)
deriving Repr

/-- The in-memory state of one `AstroDB` instance. -/
structure Store where
  db : DB
  indexes : Indexes
deriving Repr

/-- The store a fresh `AstroDB()` holds when no database file exists. -/
def emptyDB : DB := ⟨[], []⟩

/-- A fresh store: empty collections, no index definitions, no indexes. -/
def emptyStore : Store := ⟨emptyDB, []⟩

/-- The value Python's `doc.get(key)` yields (None for an absent key). -/
def docGetD (d : Doc) (k : String) : Value :=
  (dictGet d k).getD .null

/-- The owner test every data operation applies:
`doc.get("owner_id") == owner_id`. -/
def ownerEq (d : Doc) (owner : String) : Bool :=
  Value.beq (docGetD d "owner_id") (.str owner)

/-- The combined filter of the scan paths: owned by the caller and
matching the query. -/
def docPred (q : Doc) (owner : String) (d : Doc) : Bool :=
  ownerEq d owner && matchesDoc (.obj d) q

/-- Insert the bindings of `docs`' field `f` into an existing point
index, later documents overwriting earlier equal values (the loops of
`create_index` and `_rebuild_indexes`). -/
def buildFieldMapFrom (m0 : IndexMap) (docs : List Doc) (f : String) : IndexMap :=
  docs.foldl
    (fun m d =>
      match dictGet d f with
      | some v => imSet m v d
      | none => m)
    m0

/-- The point index `create_index` builds for field `f` from scratch. -/
def buildFieldMap (docs : List Doc) (f : String) : IndexMap :=
  buildFieldMapFrom [] docs f

/-- `AstroDB._update_indexes_on_insert`: for every index of the
collection, if the new document has the field, bind its value to the
document. -/
def updateIndexesOnInsert (idx : Indexes) (c : String) (doc : Doc) : Indexes :=
  match alGet idx c with
  | none => idx
  | some cidx =>
    alSet idx c
      (cidx.map
        (fun fm =>
          match dictGet doc fm.1 with
          | some v => (fm.1, imSet fm.2 v doc)
          | none => fm))

/-- `AstroDB._update_indexes_on_update`: for every index whose value
changed, drop the stale entry if it still points at this document, then
bind the new value when it is not null. -/
def updateIndexesOnUpdate (idx : Indexes) (c : String) (oldDoc newDoc : Doc) :
    Indexes :=
  match alGet idx c with
  | none => idx
  | some cidx =>
    alSet idx c
      (cidx.map
        (fun fm =>
          let oldv := docGetD oldDoc fm.1
          let newv := docGetD newDoc fm.1
          if Value.beq oldv newv then fm
          else
            let m1 :=
              match imGet fm.2 oldv with
              | some stored =>
                if Value.beq (docGetD stored "_id") (docGetD oldDoc "_id") then
                  imDel fm.2 oldv
                else fm.2
              | none => fm.2
            if Value.beq newv .null then (fm.1, m1)
            else (fm.1, imSet m1 newv newDoc)))

/-- `AstroDB._update_indexes_on_delete`: drop each index entry for the
document's field value if it still points at this document. -/
def updateIndexesOnDelete (idx : Indexes) (c : String) (doc : Doc) : Indexes :=
  match alGet idx c with
  | none => idx
  | some cidx =>
    alSet idx c
      (cidx.map
        (fun fm =>
          match dictGet doc fm.1 with
          | some v =>
            match imGet fm.2 v with
            | some stored =>
              if Value.beq (docGetD stored "_id") (docGetD doc "_id") then
                (fm.1, imDel fm.2 v)
              else fm
            | none => fm
          | none => fm))

/-- `AstroDB.insert_one`: create the collection if absent, stamp `_id`
(the generated uuid is a parameter of the model) and `owner_id`, append,
update indexes, and hand the stored document back. -/
def insert_one (s : Store) (c : String) (document : Doc) (docId owner : String) :
    Doc × Store :=
  let colls0 :=
    if alHas s.db.collections c then s.db.collections
    else alSet s.db.collections c []
  let doc := dictSet (dictSet document "_id" (.str docId)) "owner_id" (.str owner)
  let colls1 := alSet colls0 c ((alGet colls0 c).getD [] ++ [doc])
  (doc,
   { db := { s.db with collections := colls1 },
     indexes := updateIndexesOnInsert s.indexes c doc })

/-- `AstroDB._find_with_index`, inner loop over the query's clauses:
skip operator objects; on the first clause naming an indexed field,
answer from that index (a hit yields one candidate, a miss yields the
definitive empty list). -/
def fwiLoop (cidx : CollIndexes) (clauses : List (String × Value)) :
    Option (List Doc) :=
  match clauses with
  | [] => none
  | (field, value) :: rest =>
    match value with
    | .obj _ => fwiLoop cidx rest
    | _ =>
      match alGet cidx field with
      | some imap =>
        match imGet imap value with
        | some d => some [d]
        | none => some []
      | none => fwiLoop cidx rest

/-- `AstroDB._find_with_index`: none when the collection has no indexes
or no clause can use one. -/
def findWithIndex (idx : Indexes) (c : String) (query : Doc) :
    Option (List Doc) :=
  match alGet idx c with
  | none => none
  | some cidx => fwiLoop cidx query

/-- `AstroDB.find`: unknown collection yields the empty list; otherwise
the index-accelerated candidates (if any) or the full scan, both
filtered by owner and by the full query. -/
def find (s : Store) (c : String) (query : Doc) (owner : String) : List Doc :=
  match alGet s.db.collections c with
  | none => []
  | some docs =>
    match findWithIndex s.indexes c query with
    | some cands => cands.filter (docPred query owner)
    | none => docs.filter (docPred query owner)

/-- `AstroDB.find_many` is `find`. -/
def find_many (s : Store) (c : String) (query : Doc) (owner : String) :
    List Doc :=
  find s c query owner

/-- `AstroDB.find_one`: the first result of `find_many`, if any. -/
def find_one (s : Store) (c : String) (query : Doc) (owner : String) :
    Option Doc :=
  (find_many s c query owner).head?

/-- The loop of `delete_one`: iterate the collection in reverse
(`range(len-1, -1, -1)`), pop the first match encountered, i.e. the
last matching document in storage order. -/
def deleteOneGo (pred : Doc → Bool) (docs : List Doc) : Option Doc × List Doc :=
  match docs with
  | [] => (none, [])
  | d :: ds =>
    match deleteOneGo pred ds with
    | (some x, ds') => (some x, d :: ds')
    | (none, ds') => if pred d then (some d, ds') else (none, d :: ds')

/-- `AstroDB.delete_one`. -/
def delete_one (s : Store) (c : String) (query : Doc) (owner : String) :
    Option Doc × Store :=
  match alGet s.db.collections c with
  | none => (none, s)
  | some docs =>
    match deleteOneGo (docPred query owner) docs with
    | (none, _) => (none, s)
    | (some d, docs') =>
      (some d,
       { db := { s.db with collections := alSet s.db.collections c docs' },
         indexes := updateIndexesOnDelete s.indexes c d })

/-- The loop of `delete_many`: reverse iteration pops every match (the
tail is processed before the head), updating indexes per deleted
document. -/
def deleteManyGo (pred : Doc → Bool) (idx : Indexes) (c : String)
    (docs : List Doc) : Nat × List Doc × Indexes :=
  match docs with
  | [] => (0, [], idx)
  | d :: ds =>
    let (n, ds', idx') := deleteManyGo pred idx c ds
    if pred d then (n + 1, ds', updateIndexesOnDelete idx' c d)
    else (n, d :: ds', idx')

/-- `AstroDB.delete_many`. -/
def delete_many (s : Store) (c : String) (query : Doc) (owner : String) :
    Nat × Store :=
  match alGet s.db.collections c with
  | none => (0, s)
  | some docs =>
    let (n, docs', idx') := deleteManyGo (docPred query owner) s.indexes c docs
    (n,
     { db := { s.db with collections := alSet s.db.collections c docs' },
       indexes := idx' })

/-- Remove the protected keys from an update payload, as the
`del update_data[...]` statements of `update_one`/`update_many` do. -/
def stripProtected (ud : Doc) : Doc :=
  dictDel (dictDel ud "_id") "owner_id"

/-- The loop of `update_one`: forward scan; at the first owned match,
strip `_id`/`owner_id` from the caller's payload, merge it into the
document in place, update indexes, and stop.  Returns the result, the
new collection, the new indexes and the payload as the caller's dict
ends up (it is mutated only when a match was found). -/
def updateOneGo (q : Doc) (owner : String) (c : String) (idx : Indexes)
    (ud : Doc) (docs : List Doc) : Option Doc × List Doc × Indexes × Doc :=
  match docs with
  | [] => (none, [], idx, ud)
  | d :: ds =>
    if docPred q owner d then
      let ud' := stripProtected ud
      let nd := dictUpdate d ud'
      (some nd, nd :: ds, updateIndexesOnUpdate idx c d nd, ud')
    else
      let (res, ds', idx', ud'') := updateOneGo q owner c idx ud ds
      (res, d :: ds', idx', ud'')

/-- `AstroDB.update_one`. -/
def update_one (s : Store) (c : String) (query : Doc) (ud : Doc)
    (owner : String) : Option Doc × Store × Doc :=
  match alGet s.db.collections c with
  | none => (none, s, ud)
  | some docs =>
    let (res, docs', idx', ud') := updateOneGo query owner c s.indexes ud docs
    (res,
     { db := { s.db with collections := alSet s.db.collections c docs' },
       indexes := idx' },
     ud')

/-- The loop of `update_many`: forward scan applying the per-document
semantics of `update_one` to every owned match, counting them. -/
def updateManyGo (q : Doc) (owner : String) (c : String) (idx : Indexes)
    (ud : Doc) (docs : List Doc) : Nat × List Doc × Indexes × Doc :=
  match docs with
  | [] => (0, [], idx, ud)
  | d :: ds =>
    if docPred q owner d then
      let ud' := stripProtected ud
      let nd := dictUpdate d ud'
      let (n, ds', idx', ud'') :=
        updateManyGo q owner c (updateIndexesOnUpdate idx c d nd) ud' ds
      (n + 1, nd :: ds', idx', ud'')
    else
      let (n, ds', idx', ud'') := updateManyGo q owner c idx ud ds
      (n, d :: ds', idx', ud'')

/-- `AstroDB.update_many`. -/
def update_many (s : Store) (c : String) (query : Doc) (ud : Doc)
    (owner : String) : Nat × Store × Doc :=
  match alGet s.db.collections c with
  | none => (0, s, ud)
  | some docs =>
    let (n, docs', idx', ud') := updateManyGo query owner c s.indexes ud docs
    (n,
     { db := { s.db with collections := alSet s.db.collections c docs' },
       indexes := idx' },
     ud')

/-- `AstroDB.create_index`: reset the in-memory point index for
`(c, field)`, register the field in the persisted definitions if new,
and build the index from the collection's current contents. -/
def create_index (s : Store) (c field : String) : Store :=
  let idx0 := if alHas s.indexes c then s.indexes else alSet s.indexes c []
  let cidx := (alGet idx0 c).getD []
  let docs := (alGet s.db.collections c).getD []
  let idx1 := alSet idx0 c (alSet cidx field (buildFieldMap docs field))
  let ds0 := (alGet s.db.indexDefs c).getD []
  let ds1 := if ds0.contains field then ds0 else ds0 ++ [field]
  { db := { s.db with indexDefs := alSet s.db.indexDefs c ds1 },
    indexes := idx1 }

/-- `AstroDB._rebuild_indexes`: start from no indexes; per collection,
build the implicit `_id` index and one index per persisted definition
(inserting into an already-present map when a field repeats). -/
def rebuildIndexes (db : DB) : Indexes :=
  db.collections.foldl
    (fun idx cd =>
      let c := cd.1
      let docs := cd.2
      let idx1 := if alHas idx c then idx else alSet idx c []
      let cidx := (alGet idx1 c).getD []
      let cidx1 := if alHas cidx "_id" then cidx else alSet cidx "_id" []
      let cidx2 :=
        alSet cidx1 "_id"
          (buildFieldMapFrom ((alGet cidx1 "_id").getD []) docs "_id")
      let cidx3 :=
        match alGet db.indexDefs c with
        | none => cidx2
        | some fields =>
          fields.foldl
            (fun cx f =>
              let cx1 := if alHas cx f then cx else alSet cx f []
              alSet cx1 f (buildFieldMapFrom ((alGet cx1 f).getD []) docs f))
            cidx2
      alSet idx1 c cidx3)
    []

/-! ## Persistence (`load_from_disk` / `save_to_disk`)

The file contents, the JSON text and the encryption collaborator are
external to the store; the decoded shape is modelled explicitly, with
serialize-then-encrypt and read-then-decrypt-then-parse folded into a
codec pair over an opaque ciphertext type. -/

/-- The decoded on-disk object: collections, and the
`_index_definitions` key which an old-format file may lack. -/
structure RawDB where
  collections : List (String × List Doc)
  indexDefs : Option (List (String × List String))
deriving Repr

/-- What `save_to_disk` serializes: the whole `_db`, definitions
included. -/
def rawOfDB (db : DB) : RawDB := ⟨db.collections, some db.indexDefs⟩

/-- The compatibility normalization of `load_from_disk`: add an empty
`_index_definitions` when the decoded object lacks it. -/
def dbOfRaw (r : RawDB) : DB := ⟨r.collections, r.indexDefs.getD []⟩

/-- What a read of the database file can observe. -/
inductive DiskRead (γ : Type) where
  | missing : DiskRead γ
  | present : γ → DiskRead γ

/-- `AstroDB.load_from_disk` over an abstract ciphertext type `γ`:
missing file, empty file and decode/decrypt failure each reset `_db` to
the empty database **without touching `_indexes`**; a successful decode
replaces `_db` (normalizing `_index_definitions`) and rebuilds all
indexes from it. -/
def load_from_disk {γ : Type} (isEmptyData : γ → Bool)
    (decode : γ → Option RawDB) (s : Store) (file : DiskRead γ) : Store :=
  match file with
  | .missing => { s with db := emptyDB }
  | .present data =>
    if isEmptyData data then { s with db := emptyDB }
    else
      match decode data with
      | none => { s with db := emptyDB }
      | some r =>
        let db := dbOfRaw r
        { db := db, indexes := rebuildIndexes db }

/-- `AstroDB.save_to_disk` over an abstract ciphertext type `γ`:
serialize and encrypt the whole in-memory `_db`. -/
def save_to_disk {γ : Type} (encode : RawDB → γ) (s : Store) : γ :=
  encode (rawOfDB s.db)

/-- Whether a value is a mapping — an operator object in query
position (`isinstance(value, dict)` in `_find_with_index` and
`_match_field`). -/
def Value.isObj : Value → Bool
  | .obj _ => true
  | _ => false

/-- `find` with indexing disabled: the full ordered scan with the owner
filter and the predicate evaluator — the fallback branch of `find`,
and the comparison arm of the spec's index/scan equivalence property. -/
def findFullScan (s : Store) (c : String) (query : Doc) (owner : String) :
    List Doc :=
  match alGet s.db.collections c with
  | none => []
  | some docs => docs.filter (docPred query owner)

/-- Whether a document's field `f` holds a value equal to `v`
(absent means no). -/
def hasFieldVal (f : String) (v : Value) (d : Doc) : Bool :=
  match dictGet d f with
  | some w => Value.beq w v
  | none => false

/-! ## Reference semantics of returned documents (aliasing)

CPython hands dicts around by reference.  To reason about what a caller
can do with a returned document, the heap is made explicit: documents
live at addresses, a collection stores addresses, and `insert_one` /
`find` yield addresses (`return document`, `results.append(doc)` — the
very objects the store keeps). -/

/-- A document address. -/
abbrev Ref := Nat

/-- The heap of document objects; allocation appends. -/
structure Mem where
  docs : List Doc
deriving Repr

/-- Dereference (reads of a live object). -/
def memGet (m : Mem) (r : Ref) : Doc :=
  m.docs.getD r []

/-- In-place mutation of the object at `r` — what a caller does to a
document it received, e.g. `returned_doc["k"] = v`. -/
def memSet (m : Mem) (r : Ref) (d : Doc) : Mem :=
  ⟨m.docs.set r d⟩

/-- `insert_one` in the reference semantics: stamp the system fields,
append the object to the heap and its address to the collection, and
return *that same address* to the caller. -/
def insertOneR (m : Mem) (coll : List Ref) (document : Doc)
    (docId owner : String) : Ref × Mem × List Ref :=
  let doc := dictSet (dictSet document "_id" (.str docId)) "owner_id" (.str owner)
  (m.docs.length, ⟨m.docs ++ [doc]⟩, coll ++ [m.docs.length])

/-- The full-scan arm of `find` in the reference semantics: the result
holds the very addresses the collection holds. -/
def findR (m : Mem) (coll : List Ref) (q : Doc) (owner : String) : List Ref :=
  coll.filter (fun r => docPred q owner (memGet m r))

/-- The documents a caller reads out of a `find` result. -/
def findDocsR (m : Mem) (coll : List Ref) (q : Doc) (owner : String) :
    List Doc :=
  (findR m coll q owner).map (memGet m)

/-! ## Lemmas on the value and dict models -/

theorem Value.beq_null_iff (a : Value) : (Value.beq a .null = true) ↔ a = .null := by
  cases a <;> simp [Value.beq]

theorem Value.beq_str_iff (a : Value) (s : String) :
    (Value.beq a (.str s) = true) ↔ a = .str s := by
  cases a <;> simp [Value.beq]

theorem Value.scalar_beq_iff (a b : Value) (ha : a.isScalar = true) :
    (Value.beq a b = true) ↔ a = b := by
  cases a <;> cases b <;> simp_all [Value.beq, Value.isScalar]

theorem alGet_alSet_self {α : Type} (m : List (String × α)) (k : String) (v : α) :
    alGet (alSet m k v) k = some v := by
  induction m with
  | nil => simp [alGet, alSet]
  | cons p rest ih =>
    obtain ⟨k0, v0⟩ := p
    by_cases h : (k0 == k) = true
    · simp [alSet, alGet, h]
    · simp [alSet, alGet, h, ih]

theorem alGet_alSet_ne {α : Type} (m : List (String × α)) (k k' : String) (v : α)
    (h : (k == k') = false) : alGet (alSet m k v) k' = alGet m k' := by
  induction m with
  | nil => simp [alGet, alSet, h]
  | cons p rest ih =>
    obtain ⟨k0, v0⟩ := p
    by_cases hp : (k0 == k) = true
    · have hpk : k0 = k := by simpa using hp
      simp [alSet, alGet, hp, h, hpk]
    · simp [alSet, alGet, hp, ih]

theorem alSet_alSet_self {α : Type} (m : List (String × α)) (k : String) (v w : α) :
    alSet (alSet m k v) k w = alSet m k w := by
  induction m with
  | nil => simp [alSet]
  | cons p rest ih =>
    obtain ⟨k0, v0⟩ := p
    by_cases h : (k0 == k) = true
    · simp [alSet, h]
    · simp [alSet, h, ih]

theorem alSet_self_of_alGet {α : Type} (m : List (String × α)) (k : String) (v : α)
    (h : alGet m k = some v) : alSet m k v = m := by
  induction m with
  | nil => simp [alGet] at h
  | cons p rest ih =>
    obtain ⟨k0, v0⟩ := p
    by_cases hp : (k0 == k) = true
    · have hpk : k0 = k := by simpa using hp
      simp [alGet, hp] at h
      simp [alSet, hp, hpk, h]
    · simp [alGet, hp] at h
      simp [alSet, hp, ih h]

theorem dictGet_dictSet_self (d : Doc) (k : String) (v : Value) :
    dictGet (dictSet d k v) k = some v := by
  induction d with
  | nil => simp [dictGet, dictSet]
  | cons p rest ih =>
    obtain ⟨k0, v0⟩ := p
    by_cases h : (k0 == k) = true
    · simp [dictSet, dictGet, h]
    · simp [dictSet, dictGet, h, ih]

theorem dictGet_dictSet_ne (d : Doc) (k k' : String) (v : Value)
    (h : (k == k') = false) : dictGet (dictSet d k v) k' = dictGet d k' := by
  induction d with
  | nil => simp [dictGet, dictSet, h]
  | cons p rest ih =>
    obtain ⟨k0, v0⟩ := p
    by_cases hp : (k0 == k) = true
    · have hpk : k0 = k := by simpa using hp
      simp [dictSet, dictGet, hp, h, hpk]
    · simp [dictSet, dictGet, hp, ih]

theorem dictGet_dictDel_self (d : Doc) (k : String) :
    dictGet (dictDel d k) k = none := by
  induction d with
  | nil => simp [dictGet, dictDel]
  | cons p rest ih =>
    obtain ⟨k0, v0⟩ := p
    by_cases h : (k0 == k) = true
    · simp [dictDel, h, ih]
    · simp [dictDel, dictGet, h, ih]

theorem dictGet_dictDel_ne (d : Doc) (k k' : String) (h : (k == k') = false) :
    dictGet (dictDel d k) k' = dictGet d k' := by
  induction d with
  | nil => simp [dictDel]
  | cons p rest ih =>
    obtain ⟨k0, v0⟩ := p
    by_cases hp : (k0 == k) = true
    · have hpk : k0 = k := by simpa using hp
      have hk' : (k0 == k') = false := by
        subst hpk
        exact h
      simp [dictDel, dictGet, hp, hk', ih]
    · simp [dictDel, dictGet, hp, ih]

theorem dictGet_some_key_mem (u : Doc) (k : String) (w : Value)
    (h : dictGet u k = some w) : k ∈ u.map Prod.fst := by
  induction u with
  | nil => simp [dictGet] at h
  | cons p rest ih =>
    obtain ⟨k0, v0⟩ := p
    by_cases hp : (k0 == k) = true
    · have hpk : k0 = k := by simpa using hp
      simp [hpk]
    · simp [dictGet, hp] at h
      simp [ih h]

theorem dictGet_dictUpdate_not_mem (d u : Doc) (k : String)
    (h : dictGet u k = none) : dictGet (dictUpdate d u) k = dictGet d k := by
  induction u generalizing d with
  | nil => simp [dictUpdate]
  | cons p rest ih =>
    obtain ⟨k0, v0⟩ := p
    by_cases hp : (k0 == k) = true
    · simp [dictGet, hp] at h
    · simp [dictGet, hp] at h
      have hf : (k0 == k) = false := by simpa using hp
      have step : dictUpdate d ((k0, v0) :: rest) = dictUpdate (dictSet d k0 v0) rest := by
        simp [dictUpdate]
      rw [step, ih _ h, dictGet_dictSet_ne _ _ _ _ hf]

theorem dictGet_dictUpdate_mem (d u : Doc) (k : String) (v : Value)
    (hu : (u.map Prod.fst).Nodup) (h : dictGet u k = some v) :
    dictGet (dictUpdate d u) k = some v := by
  induction u generalizing d with
  | nil => simp [dictGet] at h
  | cons p rest ih =>
    obtain ⟨k0, v0⟩ := p
    have step : dictUpdate d ((k0, v0) :: rest) = dictUpdate (dictSet d k0 v0) rest := by
      simp [dictUpdate]
    rw [List.map_cons, List.nodup_cons] at hu
    by_cases hp : (k0 == k) = true
    · have hpk : k0 = k := by simpa using hp
      simp [dictGet, hp] at h
      have hrest : dictGet rest k = none := by
        cases hg : dictGet rest k with
        | none => rfl
        | some w =>
          exact absurd (dictGet_some_key_mem rest k w hg) (by rw [← hpk]; exact hu.1)
      rw [step, dictGet_dictUpdate_not_mem _ _ _ hrest, ← hpk,
        dictGet_dictSet_self, h]
    · simp [dictGet, hp] at h
      rw [step, ih _ hu.2 h]

theorem listSet_append_len (l : List Doc) (d nd : Doc) :
    (l ++ [d]).set l.length nd = l ++ [nd] := by
  induction l with
  | nil => rfl
  | cons x xs ih => simp [List.set, ih]

theorem listGetD_append_len (l : List Doc) (nd : Doc) :
    (l ++ [nd]).getD l.length [] = nd := by
  induction l with
  | nil => rfl
  | cons x xs ih => simpa using ih

/-! ## Claim theorems -/

/-- C2: the code, run on the repository's own `$exists` test input
(`run_all_tests.py`), rejects `{f: {"$exists": false}}` for a document
lacking `f` — the missing-key guard of `matches` fires before the
`$exists` operator is consulted — although the same clause accepts a
document holding an explicit null, which is what the operator branch
alone would do for an absent field as well. -/
theorem exists_false_missing_field_divergence :
    matchesDoc (.obj [("title", .str "AstroDB"), ("author", .str "Amani")])
      [("non_existent_field", .obj [("$exists", .bool false)])] = false ∧
    matchesDoc (.obj [("f", .null)])
      [("f", .obj [("$exists", .bool false)])] = true := by
  constructor
  · simp [matchesDoc, dictGet, matchPairs, getNested, getNestedGo, keyPath,
      splitDots, keyIn, dictHas, Value.beq]
  · simp [matchesDoc, dictGet, matchPairs, getNested, getNestedGo, keyPath,
      splitDots, keyIn, dictHas, Value.beq, matchField, matchOps, matchOp]

/-- C8 (counterexample): on `doc = {a: 1}` and the query holding both
`$and: [{a: 2}]` and `$or: [{a: 1}]`, the `$or` subquery `{a: 1}`
matches the document, so by the claim's `$or` reading (true iff some
subquery matches, ignoring siblings) the query should match; the code
takes the `$and` branch and returns false. -/
theorem or_sibling_ignored_counterexample :
    matchesDoc (.obj [("a", .int 1)])
      [("$and", .arr [.obj [("a", .int 2)]]),
       ("$or", .arr [.obj [("a", .int 1)]])] = false ∧
    matchesDoc (.obj [("a", .int 1)]) [("a", .int 1)] = true := by
  constructor
  · simp [matchesDoc, dictGet, matchesAll, matchesAny, matchPairs, getNested,
      getNestedGo, keyPath, splitDots, keyIn, dictHas, Value.beq, matchField,
      matchOps, matchOp]
  · simp [matchesDoc, dictGet, matchPairs, getNested, getNestedGo, keyPath,
      splitDots, keyIn, dictHas, Value.beq, matchField]

/-- C4 (counterexample): in the reference semantics of the code —
`insert_one` returns the very dict object it appended — a caller that
mutates the returned document (here: replacing its contents, so the
`owner_id` stamp is gone) changes the result of a subsequent `find`:
before the mutation the document is found, afterwards it is not. -/
theorem returned_document_copy_counterexample :
    (insertOneR ⟨[]⟩ [] [("name", .str "AstroDB")] "id1" "alice").1 = 0 ∧
    findDocsR
        (memSet (insertOneR ⟨[]⟩ [] [("name", .str "AstroDB")] "id1" "alice").2.1
          0 [("name", .str "AstroDB")])
        (insertOneR ⟨[]⟩ [] [("name", .str "AstroDB")] "id1" "alice").2.2
        [] "alice" ≠
      findDocsR (insertOneR ⟨[]⟩ [] [("name", .str "AstroDB")] "id1" "alice").2.1
        (insertOneR ⟨[]⟩ [] [("name", .str "AstroDB")] "id1" "alice").2.2
        [] "alice" := by
  constructor
  · rfl
  · simp [insertOneR, memSet, findDocsR, findR, memGet, docPred, ownerEq,
      docGetD, dictGet, dictSet, matchesDoc, matchPairs, Value.beq]

/-- C4 (amended): `insert_one` hands the caller a live reference, not a
copy: the returned address is exactly the one appended to the
collection, it dereferences to the stored (stamped) document, and a
caller-side write through it replaces the stored document itself. -/
theorem insert_returns_live_reference (m : Mem) (coll : List Ref)
    (document : Doc) (docId owner : String) :
    (insertOneR m coll document docId owner).2.2 =
      coll ++ [(insertOneR m coll document docId owner).1] ∧
    memGet (insertOneR m coll document docId owner).2.1
        (insertOneR m coll document docId owner).1 =
      dictSet (dictSet document "_id" (.str docId)) "owner_id" (.str owner) ∧
    ∀ nd : Doc,
      memGet
          (memSet (insertOneR m coll document docId owner).2.1
            (insertOneR m coll document docId owner).1 nd)
          (insertOneR m coll document docId owner).1 = nd := by
  refine ⟨rfl, ?_, ?_⟩
  · simp [insertOneR, memGet, listGetD_append_len]
  · intro nd
    simp [insertOneR, memGet, memSet, listSet_append_len, listGetD_append_len]

/-- C5 (counterexample): a store holding one index entry, hit by a
`load_from_disk` that finds no database file, falls back to empty
collections but keeps its old `_indexes` — the claim's "no entries
surviving from the pre-load state" fails (the rebuild over the loaded
empty store would be empty). -/
theorem load_failure_stale_indexes_counterexample :
    (load_from_disk (fun _ : Unit => false) (fun _ => none)
        ⟨emptyDB, [("users", [("email", [(.str "a", [("_id", .str "1")])])])]⟩
        .missing).db = emptyDB ∧
    (load_from_disk (fun _ : Unit => false) (fun _ => none)
        ⟨emptyDB, [("users", [("email", [(.str "a", [("_id", .str "1")])])])]⟩
        .missing).indexes ≠
      rebuildIndexes
        (load_from_disk (fun _ : Unit => false) (fun _ => none)
          ⟨emptyDB, [("users", [("email", [(.str "a", [("_id", .str "1")])])])]⟩
          .missing).db := by
  constructor
  · rfl
  · simp [load_from_disk, rebuildIndexes, emptyDB]

/-- C5 (amended): `load_from_disk` resets `_db` to the empty database
on a missing file, an empty file, or a decode failure, in each case
leaving the pre-load `_indexes` in place; only a successful decode
replaces the whole state, rebuilding the indexes from the loaded data. -/
theorem load_from_disk_semantics {γ : Type} (isEmptyData : γ → Bool)
    (decode : γ → Option RawDB) (s : Store) :
    (load_from_disk isEmptyData decode s .missing = { s with db := emptyDB }) ∧
    (∀ data, isEmptyData data = true →
      load_from_disk isEmptyData decode s (.present data) =
        { s with db := emptyDB }) ∧
    (∀ data, isEmptyData data = false → decode data = none →
      load_from_disk isEmptyData decode s (.present data) =
        { s with db := emptyDB }) ∧
    (∀ data r, isEmptyData data = false → decode data = some r →
      load_from_disk isEmptyData decode s (.present data) =
        { db := dbOfRaw r, indexes := rebuildIndexes (dbOfRaw r) }) := by
  refine ⟨rfl, ?_, ?_, ?_⟩
  · intro data h
    simp [load_from_disk, h]
  · intro data h hd
    simp [load_from_disk, h, hd]
  · intro data r h hd
    simp [load_from_disk, h, hd]

/-- C5 (witness): the amended load semantics applied to a concrete
store, ciphertext type and codec, on a successfully decoded file. -/
theorem load_from_disk_semantics_witness :
    ((fun _ : Bool => false) true = false) ∧
    ((fun _ : Bool => some (⟨[("c", [[("_id", Value.str "1")]])], none⟩ : RawDB))
        true =
      some (⟨[("c", [[("_id", Value.str "1")]])], none⟩ : RawDB)) ∧
    load_from_disk (fun _ : Bool => false)
        (fun _ : Bool => some (⟨[("c", [[("_id", Value.str "1")]])], none⟩ : RawDB))
        emptyStore (.present true) =
      { db := dbOfRaw ⟨[("c", [[("_id", Value.str "1")]])], none⟩,
        indexes := rebuildIndexes (dbOfRaw ⟨[("c", [[("_id", Value.str "1")]])], none⟩) } :=
  ⟨rfl, rfl,
    (load_from_disk_semantics (fun _ => false) _ emptyStore).2.2.2 true _ rfl rfl⟩

/-- C7: assuming the collaborator pipeline decodes what it encoded
(`decrypt(encrypt(x)) = x`, and an encrypted blob is never the empty
file), a `save_to_disk` followed by `load_from_disk` on any fresh store
reproduces the saved store's collections, documents and index
definitions exactly, with the indexes rebuilt from them. -/
theorem save_load_round_trip {γ : Type} (encode : RawDB → γ)
    (decode : γ → Option RawDB) (isEmptyData : γ → Bool) (s fresh : Store)
    (hdec : decode (encode (rawOfDB s.db)) = some (rawOfDB s.db))
    (hne : isEmptyData (encode (rawOfDB s.db)) = false) :
    load_from_disk isEmptyData decode fresh (.present (save_to_disk encode s)) =
      { db := s.db, indexes := rebuildIndexes s.db } := by
  simp only [load_from_disk, save_to_disk]
  rw [hne, hdec]
  simp [dbOfRaw, rawOfDB]

/-- C7 (witness): the round trip at a concrete one-document store with
one index definition, with the identity codec. -/
theorem save_load_round_trip_witness :
    ((fun r : RawDB => r)
        (rawOfDB (⟨[("c", [[("_id", Value.str "1")]])], [("c", ["f"])]⟩ : DB)) =
      rawOfDB (⟨[("c", [[("_id", Value.str "1")]])], [("c", ["f"])]⟩ : DB)) ∧
    load_from_disk (fun _ : RawDB => false) some emptyStore
        (.present
          (save_to_disk (fun r => r)
            ⟨⟨[("c", [[("_id", Value.str "1")]])], [("c", ["f"])]⟩, []⟩)) =
      { db := (⟨[("c", [[("_id", Value.str "1")]])], [("c", ["f"])]⟩ : DB),
        indexes :=
          rebuildIndexes (⟨[("c", [[("_id", Value.str "1")]])], [("c", ["f"])]⟩ : DB) } :=
  ⟨rfl,
    save_load_round_trip (fun r => r) some (fun _ => false)
      ⟨⟨[("c", [[("_id", Value.str "1")]])], [("c", ["f"])]⟩, []⟩ emptyStore
      rfl rfl⟩

theorem matchesAll_eq_all (doc : Value) (subs : List Value) :
    matchesAll doc subs =
      subs.all (fun sub =>
        match sub with
        | .obj sq => matchesDoc doc sq
        | _ => false) := by
  induction subs with
  | nil => simp [matchesAll]
  | cons sub rest ih => cases sub <;> simp [matchesAll, ih]

theorem matchesAny_eq_any (doc : Value) (subs : List Value) :
    matchesAny doc subs =
      subs.any (fun sub =>
        match sub with
        | .obj sq => matchesDoc doc sq
        | _ => false) := by
  induction subs with
  | nil => simp [matchesAny]
  | cons sub rest ih => cases sub <;> simp [matchesAny, ih]

/-- C8 (amended): a query carrying `$and` (mapped to a list) matches
iff every subquery matches, all sibling keys ignored; `$or` gets that
role only when `$and` is absent — `$and` takes precedence over an
`$or` sibling. -/
theorem and_or_precedence (doc : Value) (q : List (String × Value))
    (subs : List Value) :
    (dictGet q "$and" = some (.arr subs) →
      matchesDoc doc q =
        subs.all (fun sub =>
          match sub with
          | .obj sq => matchesDoc doc sq
          | _ => false)) ∧
    (dictGet q "$and" = none → dictGet q "$or" = some (.arr subs) →
      matchesDoc doc q =
        subs.any (fun sub =>
          match sub with
          | .obj sq => matchesDoc doc sq
          | _ => false)) := by
  constructor
  · intro h
    have step : matchesDoc doc q = matchesAll doc subs := by
      rw [matchesDoc]
      split
      · rename_i v heq
        rw [h] at heq
        injection heq with hv
        subst hv
        rfl
      · rename_i heq
        rw [h] at heq
        simp at heq
    rw [step]
    exact matchesAll_eq_all doc subs
  · intro h1 h2
    have step : matchesDoc doc q = matchesAny doc subs := by
      rw [matchesDoc]
      split
      · rename_i v heq
        rw [h1] at heq
        simp at heq
      · split
        · rename_i v heq
          rw [h2] at heq
          injection heq with hv
          subst hv
          rfl
        · rename_i heq
          rw [h2] at heq
          simp at heq
    rw [step]
    exact matchesAny_eq_any doc subs

/-- C8 (witness): the `$and` reading applied at a concrete query whose
`$and` list holds one matching subquery next to a failing sibling. -/
theorem and_or_precedence_witness :
    dictGet [("$and", Value.arr [.obj [("a", .int 1)]]), ("b", .int 2)]
        "$and" = some (.arr [.obj [("a", .int 1)]]) ∧
    matchesDoc (.obj [("a", .int 1), ("b", .int 3)])
        [("$and", .arr [.obj [("a", .int 1)]]), ("b", .int 2)] =
      List.all [Value.obj [("a", .int 1)]]
        (fun sub =>
          match sub with
          | .obj sq => matchesDoc (.obj [("a", .int 1), ("b", .int 3)]) sq
          | _ => false) :=
  ⟨rfl,
    (and_or_precedence (.obj [("a", .int 1), ("b", .int 3)])
      [("$and", .arr [.obj [("a", .int 1)]]), ("b", .int 2)]
      [.obj [("a", .int 1)]]).1 rfl⟩

/-- C9: `create_index` is idempotent — a second call on the unchanged
store yields exactly the same store (same in-memory indexes, same
persisted definition list), and after one call the in-memory index for
the pair is precisely the point index built from the collection's
current contents. -/
theorem create_index_idempotent (s : Store) (c f : String) :
    create_index (create_index s c f) c f = create_index s c f ∧
    alGet ((alGet (create_index s c f).indexes c).getD []) f =
      some (buildFieldMap ((alGet s.db.collections c).getD []) f) := by
  constructor
  · simp only [create_index]
    simp [alHas, alGet_alSet_self, alSet_alSet_self]
    by_cases h : f ∈ (alGet s.db.indexDefs c).getD []
    · simp [h]
    · simp [h]
  · simp only [create_index]
    simp [alGet_alSet_self]

theorem docPred_of_mem_find (s : Store) (c : String) (q : Doc) (o : String)
    (d : Doc) (hd : d ∈ find s c q o) : docPred q o d = true := by
  simp only [find] at hd
  split at hd
  · simp at hd
  · split at hd
    · exact (List.mem_filter.mp hd).2
    · exact (List.mem_filter.mp hd).2

/-- C1: every document `find` (hence `find_many`/`find_one`) returns
carries the caller's `owner_id` — on the index path and the scan path
alike; an unknown collection yields the empty list; and a document
freshly inserted for owner `o` is invisible to `find_one` under any
other owner. -/
theorem find_owner_scoping (s : Store) (c : String) (q : Doc) (o : String) :
    (∀ d ∈ find s c q o, dictGet d "owner_id" = some (.str o)) ∧
    (alGet s.db.collections c = none → find s c q o = []) ∧
    (∀ (document : Doc) (docId o' : String), o' ≠ o →
      find_one (insert_one emptyStore c document docId o).2 c q o' = none) := by
  refine ⟨?_, ?_, ?_⟩
  · intro d hd
    have hpred := docPred_of_mem_find s c q o d hd
    have howner : ownerEq d o = true := ((Bool.and_eq_true _ _).mp hpred).1
    unfold ownerEq at howner
    have hv := (Value.beq_str_iff _ _).mp howner
    unfold docGetD at hv
    cases hg : dictGet d "owner_id" with
    | none => rw [hg] at hv; simp at hv
    | some v => rw [hg] at hv; simp at hv; rw [hv]
  · intro h
    simp [find, h]
  · intro document docId o' hne
    have hbeq : (o == o') = false := by
      simp
      exact fun h => hne h.symm
    simp [insert_one, find_one, find_many, find, emptyStore, emptyDB, alHas,
      alGet, alSet, updateIndexesOnInsert, findWithIndex, docPred, ownerEq,
      docGetD, dictGet_dictSet_self, Value.beq, hbeq]

/-- C1 (witness): the owner-scoping theorem applied to a concrete
store, query and owners, discharging the unknown-collection and
distinct-owner hypotheses. -/
theorem find_owner_scoping_witness :
    (alGet emptyStore.db.collections "c" = none) ∧
    find emptyStore "c" [] "alice" = [] ∧
    ("bob" : String) ≠ "alice" ∧
    find_one (insert_one emptyStore "c" [("name", .str "AstroDB")] "id1"
        "alice").2 "c" [] "bob" = none :=
  ⟨rfl, (find_owner_scoping emptyStore "c" [] "alice").2.1 rfl, by decide,
    (find_owner_scoping emptyStore "c" [] "alice").2.2
      [("name", .str "AstroDB")] "id1" "bob" (by decide)⟩

theorem deleteOneGo_no_match (pred : Doc → Bool) (docs : List Doc)
    (h : ∀ x ∈ docs, pred x = false) : deleteOneGo pred docs = (none, docs) := by
  induction docs with
  | nil => rfl
  | cons d ds ih =>
    have hd : pred d = false := h d (by simp)
    have hds := ih (fun x hx => h x (by simp [hx]))
    simp [deleteOneGo, hds, hd]

theorem deleteOneGo_last (pred : Doc → Bool) (l1 : List Doc) (d : Doc)
    (l2 : List Doc) (hd : pred d = true) (h2 : ∀ x ∈ l2, pred x = false) :
    deleteOneGo pred (l1 ++ d :: l2) = (some d, l1 ++ l2) := by
  induction l1 with
  | nil => simp [deleteOneGo, deleteOneGo_no_match pred l2 h2, hd]
  | cons x xs ih => simp [deleteOneGo, ih]

theorem deleteManyGo_spec (pred : Doc → Bool) (idx : Indexes) (c : String)
    (docs : List Doc) :
    (deleteManyGo pred idx c docs).1 = docs.countP pred ∧
    (deleteManyGo pred idx c docs).2.1 = docs.filter (fun d => !(pred d)) := by
  induction docs with
  | nil => simp [deleteManyGo]
  | cons d ds ih =>
    by_cases hd : pred d = true
    · simp [deleteManyGo, hd, ih.1, ih.2, List.countP_cons]
    · simp at hd
      simp [deleteManyGo, hd, ih.1, ih.2, List.countP_cons]

/-- C3 (counterexample): a collection holding two documents that both
match the query and the owner; the claim says `delete_one` removes and
returns the first in storage order, but the code's reverse iteration
removes and returns the second, leaving the first in place. -/
theorem delete_one_first_match_counterexample :
    (delete_one
        ⟨⟨[("c", [[("_id", .str "a"), ("owner_id", .str "o")],
                  [("_id", .str "b"), ("owner_id", .str "o")]])], []⟩, []⟩
        "c" [] "o").1 =
      some [("_id", .str "b"), ("owner_id", .str "o")] ∧
    (delete_one
        ⟨⟨[("c", [[("_id", .str "a"), ("owner_id", .str "o")],
                  [("_id", .str "b"), ("owner_id", .str "o")]])], []⟩, []⟩
        "c" [] "o").2.db.collections =
      [("c", [[("_id", .str "a"), ("owner_id", .str "o")]])] ∧
    ([("_id", Value.str "a"), ("owner_id", Value.str "o")] : Doc) ≠
      [("_id", .str "b"), ("owner_id", .str "o")] := by
  refine ⟨?_, ?_, by simp⟩
  · simp [delete_one, alGet, deleteOneGo, docPred, ownerEq, docGetD, dictGet,
      matchesDoc, matchPairs, Value.beq]
  · simp [delete_one, alGet, alSet, deleteOneGo, updateIndexesOnDelete,
      docPred, ownerEq, docGetD, dictGet, matchesDoc, matchPairs, Value.beq]

/-- C3 (amended): `delete_one` removes and returns the **last** owned
matching document in current storage order (the reverse iteration's
first hit), leaving the relative order of the rest unchanged, and
returns none leaving the store untouched when nothing matches;
`delete_many` removes every owned matching document — none skipped —
and returns their count. -/
theorem delete_semantics_reverse_order (s : Store) (c : String) (q : Doc)
    (o : String) :
    (∀ (l1 l2 : List Doc) (d : Doc),
      alGet s.db.collections c = some (l1 ++ d :: l2) →
      docPred q o d = true →
      (∀ x ∈ l2, docPred q o x = false) →
      (delete_one s c q o).1 = some d ∧
      (delete_one s c q o).2.db.collections =
        alSet s.db.collections c (l1 ++ l2)) ∧
    (∀ docs, alGet s.db.collections c = some docs →
      (∀ x ∈ docs, docPred q o x = false) →
      delete_one s c q o = (none, s)) ∧
    (∀ docs, alGet s.db.collections c = some docs →
      (delete_many s c q o).1 = docs.countP (docPred q o) ∧
      (delete_many s c q o).2.db.collections =
        alSet s.db.collections c (docs.filter (fun d => !(docPred q o d)))) := by
  refine ⟨?_, ?_, ?_⟩
  · intro l1 l2 d h hd h2
    constructor
    · simp [delete_one, h, deleteOneGo_last (docPred q o) l1 d l2 hd h2]
    · simp [delete_one, h, deleteOneGo_last (docPred q o) l1 d l2 hd h2]
  · intro docs h hall
    simp [delete_one, h, deleteOneGo_no_match (docPred q o) docs hall]
  · intro docs h
    constructor
    · simp [delete_many, h, (deleteManyGo_spec (docPred q o) s.indexes c docs).1]
    · simp [delete_many, h]
      rw [show (deleteManyGo (docPred q o) s.indexes c docs).2.1 =
            docs.filter (fun d => !(docPred q o d)) from
          (deleteManyGo_spec (docPred q o) s.indexes c docs).2]

/-- C3 (witness): the amended delete semantics applied to a concrete
one-document store. -/
theorem delete_semantics_reverse_order_witness :
    (alGet
        (⟨⟨[("c", [[("owner_id", Value.str "o")]])], []⟩, []⟩ : Store).db.collections
        "c" = some ([] ++ [("owner_id", Value.str "o")] :: [])) ∧
    docPred [] "o" [("owner_id", Value.str "o")] = true ∧
    (delete_one (⟨⟨[("c", [[("owner_id", Value.str "o")]])], []⟩, []⟩ : Store)
        "c" [] "o").1 = some [("owner_id", Value.str "o")] := by
  have h1 :
      alGet
          (⟨⟨[("c", [[("owner_id", Value.str "o")]])], []⟩, []⟩ : Store).db.collections
          "c" = some ([] ++ [("owner_id", Value.str "o")] :: []) := by
    simp [alGet]
  have h2 : docPred [] "o" [("owner_id", Value.str "o")] = true := by
    simp [docPred, ownerEq, docGetD, dictGet, matchesDoc, matchPairs, Value.beq]
  exact ⟨h1, h2,
    ((delete_semantics_reverse_order
        (⟨⟨[("c", [[("owner_id", Value.str "o")]])], []⟩, []⟩ : Store) "c" [] "o").1
      [] [] [("owner_id", Value.str "o")] h1 h2 (by simp)).1⟩

theorem dictDel_sublist (u : Doc) (k : String) : (dictDel u k).Sublist u := by
  induction u with
  | nil => simp [dictDel]
  | cons p rest ih =>
    obtain ⟨k0, v0⟩ := p
    by_cases h : (k0 == k) = true
    · simp [dictDel, h]
      exact ih.cons _
    · simp [dictDel, h]
      exact ih

theorem dictDel_dictDel_same (u : Doc) (k : String) :
    dictDel (dictDel u k) k = dictDel u k := by
  induction u with
  | nil => simp [dictDel]
  | cons p rest ih =>
    obtain ⟨k0, v0⟩ := p
    by_cases h : (k0 == k) = true
    · simp [dictDel, h, ih]
    · simp [dictDel, h, ih]

theorem dictDel_comm (u : Doc) (k k' : String) :
    dictDel (dictDel u k) k' = dictDel (dictDel u k') k := by
  induction u with
  | nil => simp [dictDel]
  | cons p rest ih =>
    obtain ⟨k0, v0⟩ := p
    by_cases h : (k0 == k) = true
    · by_cases h' : (k0 == k') = true
      · simp [dictDel, h, h', ih]
      · simp [dictDel, h, h', ih]
    · by_cases h' : (k0 == k') = true
      · simp [dictDel, h, h', ih]
      · simp [dictDel, h, h', ih]

theorem stripProtected_idem (ud : Doc) :
    stripProtected (stripProtected ud) = stripProtected ud := by
  unfold stripProtected
  rw [dictDel_comm (dictDel (dictDel ud "_id") "owner_id") "_id" "owner_id",
    dictDel_dictDel_same, dictDel_comm (dictDel ud "_id") "owner_id" "_id",
    dictDel_dictDel_same]

theorem stripProtected_no_id (ud : Doc) :
    dictGet (stripProtected ud) "_id" = none := by
  unfold stripProtected
  rw [dictGet_dictDel_ne _ _ _ (by decide), dictGet_dictDel_self]

theorem stripProtected_no_owner (ud : Doc) :
    dictGet (stripProtected ud) "owner_id" = none := by
  unfold stripProtected
  rw [dictGet_dictDel_self]

theorem stripProtected_get_other (ud : Doc) (k : String)
    (h1 : (k == "_id") = false) (h2 : (k == "owner_id") = false) :
    dictGet (stripProtected ud) k = dictGet ud k := by
  have h1' : ("_id" == k) = false := by
    simp at h1 ⊢
    exact fun h => h1 h.symm
  have h2' : ("owner_id" == k) = false := by
    simp at h2 ⊢
    exact fun h => h2 h.symm
  unfold stripProtected
  rw [dictGet_dictDel_ne _ _ _ h2', dictGet_dictDel_ne _ _ _ h1']

theorem stripProtected_nodup (ud : Doc) (h : (ud.map Prod.fst).Nodup) :
    ((stripProtected ud).map Prod.fst).Nodup := by
  have hs : (stripProtected ud).Sublist ud :=
    (dictDel_sublist _ _).trans (dictDel_sublist _ _)
  exact h.sublist (hs.map Prod.fst)

theorem updateOneGo_first (q : Doc) (o c : String) (idx : Indexes) (ud : Doc)
    (l1 : List Doc) (d : Doc) (l2 : List Doc)
    (h1 : ∀ x ∈ l1, docPred q o x = false) (hd : docPred q o d = true) :
    updateOneGo q o c idx ud (l1 ++ d :: l2) =
      (some (dictUpdate d (stripProtected ud)),
       l1 ++ dictUpdate d (stripProtected ud) :: l2,
       updateIndexesOnUpdate idx c d (dictUpdate d (stripProtected ud)),
       stripProtected ud) := by
  induction l1 with
  | nil => simp [updateOneGo, hd]
  | cons x xs ih =>
    have hx : docPred q o x = false := h1 x (by simp)
    have ihs := ih (fun y hy => h1 y (by simp [hy]))
    simp [updateOneGo, hx, ihs]

theorem updateOneGo_no_match (q : Doc) (o c : String) (idx : Indexes) (ud : Doc)
    (docs : List Doc) (h : ∀ x ∈ docs, docPred q o x = false) :
    updateOneGo q o c idx ud docs = (none, docs, idx, ud) := by
  induction docs with
  | nil => rfl
  | cons d ds ih =>
    have hd : docPred q o d = false := h d (by simp)
    have ihs := ih (fun y hy => h y (by simp [hy]))
    simp [updateOneGo, hd, ihs]

theorem updateManyGo_payload (q : Doc) (o c : String) (docs : List Doc) :
    ∀ (idx : Indexes) (ud : Doc),
      ((updateManyGo q o c idx ud docs).1 = 0 ∧
        (updateManyGo q o c idx ud docs).2.2.2 = ud) ∨
      ((updateManyGo q o c idx ud docs).1 ≠ 0 ∧
        (updateManyGo q o c idx ud docs).2.2.2 = stripProtected ud) := by
  induction docs with
  | nil => intro idx ud; left; exact ⟨rfl, rfl⟩
  | cons d ds ih =>
    intro idx ud
    by_cases hd : docPred q o d = true
    · right
      rcases ih (updateIndexesOnUpdate idx c d (dictUpdate d (stripProtected ud)))
          (stripProtected ud) with ⟨hn, hp⟩ | ⟨hn, hp⟩
      · constructor
        · simp [updateManyGo, hd]
        · simp [updateManyGo, hd, hp]
      · constructor
        · simp [updateManyGo, hd]
        · simp [updateManyGo, hd, hp, stripProtected_idem]
    · simp at hd
      rcases ih idx ud with ⟨hn, hp⟩ | ⟨hn, hp⟩
      · left
        constructor
        · simp [updateManyGo, hd, hn]
        · simp [updateManyGo, hd, hp]
      · right
        constructor
        · simp [updateManyGo, hd, hn]
        · simp [updateManyGo, hd, hp]

/-- C10: when `update_one` finds an owned matching document it deletes
`_id` and `owner_id` from the caller's payload dict itself — the
payload handed back by the model is `stripProtected ud`, which no
longer binds either key — merges the remaining fields into the matched
document, and leaves that document's `_id` and `owner_id` unchanged;
without a match the payload is untouched; `update_many`'s payload
likewise loses both keys as soon as at least one document was
updated. -/
theorem update_strips_protected_keys (s : Store) (c : String) (q ud : Doc)
    (o : String) :
    (∀ (l1 l2 : List Doc) (d : Doc),
      alGet s.db.collections c = some (l1 ++ d :: l2) →
      (∀ x ∈ l1, docPred q o x = false) →
      docPred q o d = true →
      (update_one s c q ud o).1 = some (dictUpdate d (stripProtected ud)) ∧
      (update_one s c q ud o).2.2 = stripProtected ud ∧
      dictGet (stripProtected ud) "_id" = none ∧
      dictGet (stripProtected ud) "owner_id" = none ∧
      dictGet (dictUpdate d (stripProtected ud)) "_id" = dictGet d "_id" ∧
      dictGet (dictUpdate d (stripProtected ud)) "owner_id" =
        dictGet d "owner_id" ∧
      ((ud.map Prod.fst).Nodup →
        ∀ (k : String) (v : Value), (k == "_id") = false →
          (k == "owner_id") = false → dictGet ud k = some v →
          dictGet (dictUpdate d (stripProtected ud)) k = some v)) ∧
    (∀ docs, alGet s.db.collections c = some docs →
      (∀ x ∈ docs, docPred q o x = false) →
      (update_one s c q ud o).2.2 = ud) ∧
    (∀ docs, alGet s.db.collections c = some docs →
      (update_many s c q ud o).1 ≠ 0 →
      dictGet (update_many s c q ud o).2.2 "_id" = none ∧
      dictGet (update_many s c q ud o).2.2 "owner_id" = none) := by
  refine ⟨?_, ?_, ?_⟩
  · intro l1 l2 d h h1 hd
    refine ⟨?_, ?_, stripProtected_no_id ud, stripProtected_no_owner ud,
      ?_, ?_, ?_⟩
    · simp [update_one, h, updateOneGo_first q o c s.indexes ud l1 d l2 h1 hd]
    · simp [update_one, h, updateOneGo_first q o c s.indexes ud l1 d l2 h1 hd]
    · exact dictGet_dictUpdate_not_mem _ _ _ (stripProtected_no_id ud)
    · exact dictGet_dictUpdate_not_mem _ _ _ (stripProtected_no_owner ud)
    · intro hnod k v hk1 hk2 hget
      have hsg : dictGet (stripProtected ud) k = some v := by
        rw [stripProtected_get_other ud k hk1 hk2]
        exact hget
      exact dictGet_dictUpdate_mem _ _ _ _ (stripProtected_nodup ud hnod) hsg
  · intro docs h hall
    simp [update_one, h, updateOneGo_no_match q o c s.indexes ud docs hall]
  · intro docs h hn
    rcases updateManyGo_payload q o c docs s.indexes ud with ⟨h0, _⟩ | ⟨_, hp⟩
    · exfalso
      apply hn
      simp [update_many, h, h0]
    · have hpay : (update_many s c q ud o).2.2 = stripProtected ud := by
        simp [update_many, h, hp]
      rw [hpay]
      exact ⟨stripProtected_no_id ud, stripProtected_no_owner ud⟩

/-- C10 (witness): the payload-stripping semantics applied to a
concrete store and the spec's own example payload. -/
theorem update_strips_protected_keys_witness :
    (alGet
        (⟨⟨[("c", [[("owner_id", Value.str "o")]])], []⟩, []⟩ : Store).db.collections
        "c" = some ([] ++ [("owner_id", Value.str "o")] :: [])) ∧
    docPred [] "o" [("owner_id", Value.str "o")] = true ∧
    (update_one (⟨⟨[("c", [[("owner_id", Value.str "o")]])], []⟩, []⟩ : Store)
        "c" [] [("_id", .str "x"), ("status", .str "done")] "o").2.2 =
      stripProtected [("_id", .str "x"), ("status", .str "done")] := by
  have h1 :
      alGet
          (⟨⟨[("c", [[("owner_id", Value.str "o")]])], []⟩, []⟩ : Store).db.collections
          "c" = some ([] ++ [("owner_id", Value.str "o")] :: []) := by
    simp [alGet]
  have h2 : docPred [] "o" [("owner_id", Value.str "o")] = true := by
    simp [docPred, ownerEq, docGetD, dictGet, matchesDoc, matchPairs, Value.beq]
  exact ⟨h1, h2,
    (((update_strips_protected_keys
        (⟨⟨[("c", [[("owner_id", Value.str "o")]])], []⟩, []⟩ : Store) "c" []
        [("_id", .str "x"), ("status", .str "done")] "o").1
      [] [] [("owner_id", Value.str "o")] h1 (by simp) h2).2).1⟩

theorem Value.scalar_beq_iff_right (a b : Value) (hb : b.isScalar = true) :
    (Value.beq a b = true) ↔ a = b := by
  cases a <;> cases b <;> simp_all [Value.beq, Value.isScalar]

theorem matchField_scalar (w v : Value) (hw : w.isScalar = true)
    (hv : v.isObj = false) : matchField w v = Value.beq w v := by
  cases w <;> cases v <;>
    simp_all [matchField, Value.beq, Value.isScalar, Value.isObj]

theorem matchesDoc_single (d : Doc) (f : String) (v : Value)
    (hand : (f == "$and") = false) (hor : (f == "$or") = false)
    (hpath : keyPath f = [f]) :
    matchesDoc (.obj d) [(f, v)] =
      (match dictGet d f with
       | some w => matchField w v
       | none => false) := by
  have hga : dictGet [(f, v)] "$and" = none := by simp [dictGet, hand]
  have hgo : dictGet [(f, v)] "$or" = none := by simp [dictGet, hor]
  have step : matchesDoc (.obj d) [(f, v)] = matchPairs (.obj d) [(f, v)] := by
    rw [matchesDoc]
    split
    · rename_i v' heq
      rw [hga] at heq
      simp at heq
    · split
      · rename_i v' heq
        rw [hgo] at heq
        simp at heq
      · rfl
  rw [step]
  have hget : getNested (Value.obj d) f = getNestedGo (Value.obj d) [f] := by
    rw [getNested, hpath]
  cases hg : dictGet d f with
  | none =>
    simp [matchPairs, hget, getNestedGo, hg, keyIn, dictHas, Value.beq]
  | some w =>
    simp [matchPairs, hget, getNestedGo, hg, keyIn, dictHas]


theorem imGet_imSet_scalar (m : IndexMap) (w : Value) (d : Doc) (v : Value)
    (hw : w.isScalar = true) :
    imGet (imSet m w d) v = if Value.beq w v then some d else imGet m v := by
  induction m with
  | nil => simp [imSet, imGet]
  | cons p rest ih =>
    obtain ⟨k, e⟩ := p
    by_cases hk : Value.beq k w = true
    · have hkw : k = w := (Value.scalar_beq_iff_right k w hw).mp hk
      subst hkw
      by_cases hv : Value.beq k v = true
      · simp [imSet, hk, imGet, hv]
      · simp at hv
        simp [imSet, hk, imGet, hv]
    · simp at hk
      by_cases hwv : Value.beq w v = true
      · have hwveq : w = v := (Value.scalar_beq_iff w v hw).mp hwv
        have hkv : Value.beq k v = false := by
          subst hwveq
          by_cases h : Value.beq k w = true
          · exact absurd h (by simp [hk])
          · simpa using h
        simp [imSet, hk, imGet, hkv, hwv, ih]
      · simp at hwv
        simp [imSet, hk, imGet, hwv, ih]

theorem imGet_buildFieldMapFrom (f : String) (v : Value) (docs : List Doc) :
    ∀ (m0 : IndexMap),
      (∀ d ∈ docs, ∀ w, dictGet d f = some w → w.isScalar = true) →
      imGet (buildFieldMapFrom m0 docs f) v =
        (match docs.reverse.find? (hasFieldVal f v) with
         | some d => some d
         | none => imGet m0 v) := by
  induction docs with
  | nil => intro m0 _; simp [buildFieldMapFrom]
  | cons d ds ih =>
    intro m0 hscal
    have hstep : buildFieldMapFrom m0 (d :: ds) f =
        buildFieldMapFrom
          (match dictGet d f with
           | some w => imSet m0 w d
           | none => m0) ds f := by
      simp [buildFieldMapFrom]
    rw [hstep, ih _ (fun x hx => hscal x (by simp [hx]))]
    rw [List.reverse_cons, List.find?_append]
    cases hds : ds.reverse.find? (hasFieldVal f v) with
    | some x => simp
    | none =>
      simp
      cases hg : dictGet d f with
      | none => simp [List.find?, hasFieldVal, hg]
      | some w =>
        have hwsc : w.isScalar = true := hscal d (by simp) w hg
        by_cases hwv : Value.beq w v = true
        · simp [List.find?, hasFieldVal, hg, hwv,
            imGet_imSet_scalar m0 w d v hwsc]
        · simp at hwv
          simp [List.find?, hasFieldVal, hg, hwv,
            imGet_imSet_scalar m0 w d v hwsc]


theorem docPred_single (d : Doc) (f : String) (v : Value) (o : String)
    (hand : (f == "$and") = false) (hor : (f == "$or") = false)
    (hpath : keyPath f = [f]) (hobj : v.isObj = false)
    (hscal : ∀ w, dictGet d f = some w → w.isScalar = true) :
    docPred [(f, v)] o d = (ownerEq d o && hasFieldVal f v d) := by
  unfold docPred
  rw [matchesDoc_single d f v hand hor hpath]
  cases hg : dictGet d f with
  | none => simp [hasFieldVal, hg]
  | some w =>
    simp [hasFieldVal, hg, matchField_scalar w v (hscal w hg) hobj]

theorem filter_last_unique (f : String) (v : Value) (o : String)
    (docs : List Doc)
    (hscal : ∀ d ∈ docs, ∀ w, dictGet d f = some w → w.isScalar = true)
    (hdist : (docs.filterMap (fun d => dictGet d f)).Pairwise
      (fun a b => a ≠ b)) :
    docs.filter (fun d => ownerEq d o && hasFieldVal f v d) =
      (match docs.reverse.find? (hasFieldVal f v) with
       | some d => if ownerEq d o then [d] else []
       | none => []) := by
  induction docs with
  | nil => simp
  | cons d ds ih =>
    by_cases hd : hasFieldVal f v d = true
    · obtain ⟨w, hw, hwv⟩ : ∃ w, dictGet d f = some w ∧ Value.beq w v = true := by
        unfold hasFieldVal at hd
        cases hg : dictGet d f with
        | none => rw [hg] at hd; simp at hd
        | some w => rw [hg] at hd; exact ⟨w, rfl, hd⟩
      have hwsc : w.isScalar = true := hscal d (by simp) w hw
      have hwveq : w = v := (Value.scalar_beq_iff w v hwsc).mp hwv
      have hall : ∀ x ∈ ds, hasFieldVal f v x = false := by
        intro x hx
        unfold hasFieldVal
        cases hg : dictGet x f with
        | none => simp
        | some w' =>
          by_cases hw'v : Value.beq w' v = true
          · exfalso
            have hw'sc : w'.isScalar = true := hscal x (by simp [hx]) w' hg
            have hw'eq : w' = v := (Value.scalar_beq_iff w' v hw'sc).mp hw'v
            have hmem : w' ∈ ds.filterMap (fun d => dictGet d f) :=
              List.mem_filterMap.mpr ⟨x, hx, hg⟩
            have hcons : (d :: ds).filterMap (fun d => dictGet d f) =
                w :: ds.filterMap (fun d => dictGet d f) := by
              simp [List.filterMap_cons, hw]
            rw [hcons, List.pairwise_cons] at hdist
            exact hdist.1 w' hmem (by rw [hwveq, hw'eq])
          · simpa using hw'v
      have hfds : ds.filter (fun d => ownerEq d o && hasFieldVal f v d) = [] := by
        rw [List.filter_eq_nil]
        intro x hx
        simp [hall x hx]
      have hfind : ds.reverse.find? (hasFieldVal f v) = none := by
        rw [List.find?_eq_none]
        intro x hx
        simp [hall x (List.mem_reverse.mp hx)]
      rw [List.filter_cons, List.reverse_cons, List.find?_append, hfind]
      simp [List.find?, hd, hfds]
    · simp at hd
      have htail : (ds.filterMap (fun d => dictGet d f)).Pairwise
          (fun a b => a ≠ b) := by
        cases hg : dictGet d f with
        | none =>
          have : (d :: ds).filterMap (fun d => dictGet d f) =
              ds.filterMap (fun d => dictGet d f) := by
            simp [List.filterMap_cons, hg]
          rwa [this] at hdist
        | some w =>
          have : (d :: ds).filterMap (fun d => dictGet d f) =
              w :: ds.filterMap (fun d => dictGet d f) := by
            simp [List.filterMap_cons, hg]
          rw [this, List.pairwise_cons] at hdist
          exact hdist.2
      rw [List.filter_cons, List.reverse_cons, List.find?_append]
      have hsingle : [d].find? (hasFieldVal f v) = none := by
        simp [List.find?, hd]
      rw [hsingle]
      simp [hd]
      exact ih (fun x hx w hw => hscal x (by simp [hx]) w hw) htail

theorem fwiLoop_single_none (cidx : CollIndexes) (f : String) (v : Value)
    (imap : IndexMap) (hobj : v.isObj = false) (hf : alGet cidx f = some imap)
    (him : imGet imap v = none) : fwiLoop cidx [(f, v)] = some [] := by
  cases v <;> simp_all [fwiLoop, Value.isObj]

theorem fwiLoop_single_some (cidx : CollIndexes) (f : String) (v : Value)
    (imap : IndexMap) (d : Doc) (hobj : v.isObj = false)
    (hf : alGet cidx f = some imap) (him : imGet imap v = some d) :
    fwiLoop cidx [(f, v)] = some [d] := by
  cases v <;> simp_all [fwiLoop, Value.isObj]


/-- C6 (amended): for a query that is a single top-level bare-equality
clause on `f`, where `f` is a plain (dot-free, non-operator) field name
whose index holds exactly the point index built from the collection's
current contents, and where the stored `f`-values are scalars and
pairwise distinct, `find` through the index path returns the same list
as the full scan with the owner filter and the predicate evaluator; and
whenever `f` is indexed and the queried value is absent from its index,
`find` returns the empty list with no further scan. -/
theorem index_scan_equivalence (s : Store) (c f : String) (v : Value)
    (o : String) :
    (∀ (docs : List Doc) (cidx : CollIndexes),
      alGet s.db.collections c = some docs →
      alGet s.indexes c = some cidx →
      alGet cidx f = some (buildFieldMap docs f) →
      (f == "$and") = false → (f == "$or") = false →
      keyPath f = [f] → v.isObj = false →
      (∀ d ∈ docs, ∀ w, dictGet d f = some w → w.isScalar = true) →
      (docs.filterMap (fun d => dictGet d f)).Pairwise (fun a b => a ≠ b) →
      find s c [(f, v)] o = findFullScan s c [(f, v)] o) ∧
    (∀ (docs : List Doc) (cidx : CollIndexes) (imap : IndexMap),
      alGet s.db.collections c = some docs →
      alGet s.indexes c = some cidx →
      alGet cidx f = some imap →
      v.isObj = false →
      imGet imap v = none →
      find s c [(f, v)] o = []) := by
  constructor
  · intro docs cidx h1 h2 h3 hand hor hpath hobj hscal hdist
    have hscan : findFullScan s c [(f, v)] o =
        docs.filter (docPred [(f, v)] o) := by
      simp [findFullScan, h1]
    have hfeq : docs.filter (docPred [(f, v)] o) =
        docs.filter (fun d => ownerEq d o && hasFieldVal f v d) :=
      List.filter_congr
        (fun x hx =>
          docPred_single x f v o hand hor hpath hobj
            (fun w hw => hscal x hx w hw))
    have hbm := imGet_buildFieldMapFrom f v docs [] hscal
    cases hr : docs.reverse.find? (hasFieldVal f v) with
    | some d =>
      have him : imGet (buildFieldMap docs f) v = some d := by
        rw [show buildFieldMap docs f = buildFieldMapFrom [] docs f from rfl,
          hbm, hr]
      have hfl := fwiLoop_single_some cidx f v (buildFieldMap docs f) d hobj
        h3 him
      have hdmem : d ∈ docs :=
        List.mem_reverse.mp (List.mem_of_find?_eq_some hr)
      have hdval : hasFieldVal f v d = true := List.find?_some hr
      have hdpred : docPred [(f, v)] o d = (ownerEq d o && hasFieldVal f v d) :=
        docPred_single d f v o hand hor hpath hobj
          (fun w hw => hscal d hdmem w hw)
      rw [hscan, hfeq, filter_last_unique f v o docs hscal hdist, hr]
      simp [find, h1, findWithIndex, h2, hfl, hdpred, hdval]
      simp [List.filter_cons, hdpred, hdval]
    | none =>
      have him : imGet (buildFieldMap docs f) v = none := by
        rw [show buildFieldMap docs f = buildFieldMapFrom [] docs f from rfl,
          hbm, hr]
        simp [imGet]
      have hfl := fwiLoop_single_none cidx f v (buildFieldMap docs f) hobj
        h3 him
      rw [hscan, hfeq, filter_last_unique f v o docs hscal hdist, hr]
      simp [find, h1, findWithIndex, h2, hfl]
  · intro docs cidx imap h1 h2 h3 hobj him
    have hfl := fwiLoop_single_none cidx f v imap hobj h3 him
    simp [find, h1, findWithIndex, h2, hfl]


/-- C6 (witness): the equivalence applied to a concrete one-document
collection with a properly built index on `f`. -/
theorem index_scan_equivalence_witness :
    keyPath "f" = ["f"] ∧
    alGet
        (⟨⟨[("c", [[("_id", Value.str "1"), ("owner_id", Value.str "o"),
                    ("f", Value.int 1)]])], [("c", ["f"])]⟩,
          [("c", [("f",
            buildFieldMap [[("_id", Value.str "1"), ("owner_id", Value.str "o"),
              ("f", Value.int 1)]] "f")])]⟩ : Store).db.collections "c" =
      some [[("_id", Value.str "1"), ("owner_id", Value.str "o"),
        ("f", Value.int 1)]] ∧
    find
        (⟨⟨[("c", [[("_id", Value.str "1"), ("owner_id", Value.str "o"),
                    ("f", Value.int 1)]])], [("c", ["f"])]⟩,
          [("c", [("f",
            buildFieldMap [[("_id", Value.str "1"), ("owner_id", Value.str "o"),
              ("f", Value.int 1)]] "f")])]⟩ : Store) "c" [("f", Value.int 1)]
        "o" =
      findFullScan
        (⟨⟨[("c", [[("_id", Value.str "1"), ("owner_id", Value.str "o"),
                    ("f", Value.int 1)]])], [("c", ["f"])]⟩,
          [("c", [("f",
            buildFieldMap [[("_id", Value.str "1"), ("owner_id", Value.str "o"),
              ("f", Value.int 1)]] "f")])]⟩ : Store) "c" [("f", Value.int 1)]
        "o" := by
  refine ⟨by decide, by simp [alGet], ?_⟩
  exact (index_scan_equivalence _ "c" "f" (Value.int 1) "o").1
    [[("_id", Value.str "1"), ("owner_id", Value.str "o"), ("f", Value.int 1)]]
    [("f",
      buildFieldMap [[("_id", Value.str "1"), ("owner_id", Value.str "o"),
        ("f", Value.int 1)]] "f")]
    (by simp [alGet]) (by simp [alGet]) (by simp [alGet])
    (by decide) (by decide) (by decide) rfl
    (by
      intro d hd w hw
      simp at hd
      subst hd
      simp [dictGet] at hw
      simp [← hw, Value.isScalar])
    (by simp [dictGet])

/-- C6 (counterexample): index on the dotted field name `"a.b"` over a
document storing `a: (b: 1)` nested — `create_index` indexes by the
literal key, so the built index is empty, and `find` on the
bare-equality query `a.b = 1` answers the definitive empty list from
the index, while the full scan resolves the dotted path and returns the
document: the two paths disagree. -/
theorem index_scan_dotted_field_counterexample :
    buildFieldMap
        [[("_id", Value.str "1"), ("owner_id", Value.str "o"),
          ("a", Value.obj [("b", Value.int 1)])]] "a.b" = [] ∧
    find
        (⟨⟨[("c", [[("_id", Value.str "1"), ("owner_id", Value.str "o"),
                    ("a", Value.obj [("b", Value.int 1)])]])],
           [("c", ["a.b"])]⟩, [("c", [("a.b", [])])]⟩ : Store)
        "c" [("a.b", Value.int 1)] "o" = [] ∧
    findFullScan
        (⟨⟨[("c", [[("_id", Value.str "1"), ("owner_id", Value.str "o"),
                    ("a", Value.obj [("b", Value.int 1)])]])],
           [("c", ["a.b"])]⟩, [("c", [("a.b", [])])]⟩ : Store)
        "c" [("a.b", Value.int 1)] "o" =
      [[("_id", Value.str "1"), ("owner_id", Value.str "o"),
        ("a", Value.obj [("b", Value.int 1)])]] ∧
    find
        (⟨⟨[("c", [[("_id", Value.str "1"), ("owner_id", Value.str "o"),
                    ("a", Value.obj [("b", Value.int 1)])]])],
           [("c", ["a.b"])]⟩, [("c", [("a.b", [])])]⟩ : Store)
        "c" [("a.b", Value.int 1)] "o" ≠
      findFullScan
        (⟨⟨[("c", [[("_id", Value.str "1"), ("owner_id", Value.str "o"),
                    ("a", Value.obj [("b", Value.int 1)])]])],
           [("c", ["a.b"])]⟩, [("c", [("a.b", [])])]⟩ : Store)
        "c" [("a.b", Value.int 1)] "o" := by
  have h1 : buildFieldMap
      [[("_id", Value.str "1"), ("owner_id", Value.str "o"),
        ("a", Value.obj [("b", Value.int 1)])]] "a.b" = [] := by
    simp [buildFieldMap, buildFieldMapFrom, dictGet]
  have h2 : find
      (⟨⟨[("c", [[("_id", Value.str "1"), ("owner_id", Value.str "o"),
                  ("a", Value.obj [("b", Value.int 1)])]])],
         [("c", ["a.b"])]⟩, [("c", [("a.b", [])])]⟩ : Store)
      "c" [("a.b", Value.int 1)] "o" = [] := by
    simp [find, alGet, findWithIndex, fwiLoop, imGet]
  have h3 : findFullScan
      (⟨⟨[("c", [[("_id", Value.str "1"), ("owner_id", Value.str "o"),
                  ("a", Value.obj [("b", Value.int 1)])]])],
         [("c", ["a.b"])]⟩, [("c", [("a.b", [])])]⟩ : Store)
      "c" [("a.b", Value.int 1)] "o" =
      [[("_id", Value.str "1"), ("owner_id", Value.str "o"),
        ("a", Value.obj [("b", Value.int 1)])]] := by
    simp [findFullScan, alGet, docPred, ownerEq, docGetD, dictGet, Value.beq,
      matchesDoc, matchPairs, getNested, getNestedGo, keyPath, splitDots,
      keyIn, dictHas, matchField]
  refine ⟨h1, h2, h3, ?_⟩
  rw [h2, h3]
  simp

end AstroDB
